import Mathlib

/-!
Verification development for the `grammar_experiments` repository
(`trees.py`, `docapply.py`): a shallow embedding of the span-graph
builder, the chart-style resolver, the greedy tree selector and the
rule-notation compiler, together with theorems about the claims made by
the specification.

Conventions of the embedding:
* Python `float('-inf') / float('inf')` span sentinels are modelled by the
  `XInt` type (`ninf`, `int n`, `pinf`).
* `networkx.DiGraph` (version 1.x, where `nodes()` / `successors()` return
  list snapshots in insertion order) is modelled by `DG`: an
  insertion-ordered node list and edge list with de-duplicating insertion.
  Python dict/set containers key graph nodes by `Node.__hash__/__eq__`,
  which use only `(span, name)`; graphs therefore store `NKey` values and
  the weight is kept separately where the source keeps it (`PNode`).
* Loops whose termination is not structural (`while` loops, breadth-first
  queues) are modelled with an explicit fuel argument; the source loops
  terminate on the inputs the claims are about, and the fuel used at each
  call site is large enough for the computation to finish there.
-/

set_option synthInstance.maxSize 1024

namespace Trees

/-- Extended integers: document offsets plus the `float('±inf')` used for
the `START`/`END` sentinel spans in `trees.py`. -/
inductive XInt where
  | ninf
  | int (n : Int)
  | pinf
deriving DecidableEq, Repr

/-- Strict comparison of extended offsets, as Python float `<`. -/
def xlt : XInt → XInt → Bool
  | XInt.ninf, XInt.ninf => false
  | XInt.ninf, _ => true
  | XInt.int _, XInt.ninf => false
  | XInt.int a, XInt.int b => decide (a < b)
  | XInt.int _, XInt.pinf => true
  | XInt.pinf, _ => false

/-- A span: half-open interval of extended offsets, compared as Python
tuples are (lexicographically). -/
abbrev Span := XInt × XInt

/-- Lexicographic `<` on spans: Python tuple comparison used by
`Node.__lt__`. -/
def spanLT (a b : Span) : Bool :=
  xlt a.1 b.1 || (decide (a.1 = b.1) && xlt a.2 b.2)

/-- The identity a Python `Node` exposes to dicts, sets and graphs:
`__hash__`/`__eq__` use exactly `(span, name)` and ignore the weight. -/
abbrev NKey := Span × String

/-- A full `Node` object of `trees.py`: span, label and weight.  Equality
of `Node`s in the source is `NKey` equality; `PNode` keeps the weight for
the places the source reads `node.weight`. -/
structure PNode where
  span : Span
  name : String
  weight : Int
deriving DecidableEq, Repr

/-- The `(span, name)` key of a node, the identity used by every dict,
set and graph container in the source. -/
def PNode.key (n : PNode) : NKey := (n.span, n.name)

/-- `START = Node((float('-inf'), float('-inf')), 'START')`. -/
def START : PNode := ⟨(XInt.ninf, XInt.ninf), "START", 1⟩

/-- `END = Node((float('inf'), float('inf')), 'END')`. -/
def ENDN : PNode := ⟨(XInt.pinf, XInt.pinf), "END", 1⟩

/-- A directed graph as `networkx` 1.x keeps it: insertion-ordered node
and edge lists, no duplicates. -/
structure DG where
  nodes : List NKey
  edges : List (NKey × NKey)
deriving DecidableEq, Repr

/-- `graph.add_node`: no-op when present, else appended. -/
def DG.addNode (g : DG) (v : NKey) : DG :=
  if v ∈ g.nodes then g else { g with nodes := g.nodes ++ [v] }

/-- `graph.add_edge`: adds missing endpoints, then the edge if new. -/
def DG.addEdge (g : DG) (a b : NKey) : DG :=
  let g1 := (g.addNode a).addNode b
  if (a, b) ∈ g1.edges then g1 else { g1 with edges := g1.edges ++ [(a, b)] }

/-- `graph.add_nodes_from`. -/
def DG.addNodes (g : DG) (vs : List NKey) : DG := vs.foldl DG.addNode g

/-- `graph.add_edges_from`. -/
def DG.addEdges (g : DG) (es : List (NKey × NKey)) : DG :=
  es.foldl (fun h e => h.addEdge e.1 e.2) g

/-- `graph.successors(a)`, in edge-insertion order. -/
def DG.succs (g : DG) (a : NKey) : List NKey :=
  (g.edges.filter (fun e => decide (e.1 = a))).map (fun e => e.2)

/-- `graph.predecessors(b)`, in edge-insertion order. -/
def DG.preds (g : DG) (b : NKey) : List NKey :=
  (g.edges.filter (fun e => decide (e.2 = b))).map (fun e => e.1)

/-- Presence of a direct edge: one entry of the boolean adjacency matrix
`nx.to_numpy_matrix(graph) == 1`. -/
def DG.hasEdge (g : DG) (a b : NKey) : Bool := decide ((a, b) ∈ g.edges)

/-- One entry of the boolean product `adjacency_matrix @ reachability_matrix`
computed by `remove_shortcuts`.  NOTE: the source computes
`reachability_matrix = nx.floyd_warshall_numpy(graph) == 1`; an entry of the
shortest-path-distance matrix equals `1` exactly when a direct edge exists
(all edge weights are 1), so the "reachability" factor is again the
adjacency matrix and the product witnesses paths of length exactly two. -/
def adjComp (g : DG) (a b : NKey) : Bool :=
  g.nodes.any (fun x => g.hasEdge a x && g.hasEdge x b)

/-- `remove_shortcuts(graph)`: keeps an edge iff it is adjacent and not in
`adjacency @ reachability` (`transitive_reduction = adj & ~(adj @ reach)`),
and removes the rest (`to_remove = adj ^ transitive_reduction`). -/
def removeShortcuts (g : DG) : DG :=
  { g with edges := g.edges.filter (fun e => !(adjComp g e.1 e.2)) }

/-- The edge relation of a graph, as a proposition. -/
def ERel (g : DG) (a b : NKey) : Prop := (a, b) ∈ g.edges

/-- Reachability (zero or more edges). -/
def Reaches (g : DG) : NKey → NKey → Prop := Relation.ReflTransGen (ERel g)

/-- Acyclicity: no node lies on a non-trivial cycle. -/
def AcyclicDG (g : DG) : Prop := ∀ a, ¬ Relation.TransGen (ERel g) a a

/-- A rank function that strictly increases along every edge certifies
acyclicity. -/
theorem acyclic_of_rank (g : DG) (f : NKey → Nat)
    (h : ∀ e ∈ g.edges, f e.1 < f e.2) : AcyclicDG g := by
  intro a hcyc
  have mono : ∀ x y, Relation.TransGen (ERel g) x y → f x < f y := by
    intro x y hxy
    induction hxy with
    | single h1 => exact h _ h1
    | tail _ h1 ih => exact ih.trans (h _ h1)
  exact lt_irrefl (f a) (mono a a hcyc)

theorem erel_removeShortcuts_sub (g : DG) {a b : NKey}
    (h : ERel (removeShortcuts g) a b) : ERel g a b := by
  have := List.mem_filter.mp h
  exact this.1

theorem mem_removeShortcuts_iff (g : DG) (a b : NKey) :
    ERel (removeShortcuts g) a b ↔ ERel g a b ∧ adjComp g a b = false := by
  constructor
  · intro h
    have h' := List.mem_filter.mp h
    refine ⟨h'.1, ?_⟩
    have := h'.2
    simpa using this
  · intro ⟨h1, h2⟩
    refine List.mem_filter.mpr ⟨h1, ?_⟩
    simp [h2]

/-- Helper: an edge surviving the reduction implies the surviving edge was
present and had no two-step bypass in the original graph. -/
theorem adjComp_exists (g : DG) {a b : NKey} (h : adjComp g a b = true) :
    ∃ x ∈ g.nodes, ERel g a x ∧ ERel g x b := by
  rcases List.any_eq_true.mp h with ⟨x, hx, hedge⟩
  rcases (Bool.and_eq_true _ _).mp hedge with ⟨h1, h2⟩
  have e1 : (a, x) ∈ g.edges := of_decide_eq_true h1
  have e2 : (x, b) ∈ g.edges := of_decide_eq_true h2
  exact ⟨x, hx, e1, e2⟩

/-- Every edge of a reduced graph: the reduction removed exactly the edges
with a two-step bypass, computed once on the input adjacency. -/
theorem removeShortcuts_kept (g : DG) {a b : NKey}
    (h : ERel (removeShortcuts g) a b) : adjComp g a b = false :=
  ((mem_removeShortcuts_iff g a b).mp h).2

instance (g : DG) (a b : NKey) : Decidable (ERel g a b) :=
  inferInstanceAs (Decidable ((a, b) ∈ g.edges))

theorem adjComp_intro (g : DG) {a b x : NKey} (hx : x ∈ g.nodes)
    (h1 : ERel g a x) (h2 : ERel g x b) : adjComp g a b = true := by
  refine List.any_eq_true.mpr ⟨x, hx, ?_⟩
  exact (Bool.and_eq_true _ _).mpr ⟨decide_eq_true h1, decide_eq_true h2⟩

theorem DG.eq_of_parts : ∀ (g h : DG), g.nodes = h.nodes → g.edges = h.edges → g = h
  | ⟨_, _⟩, ⟨_, _⟩, rfl, rfl => rfl

/-- Key step for reachability preservation: in an acyclic graph every
*original* edge is still realised by a path of the reduced graph.  The
induction is on the number of graph nodes lying strictly between the two
endpoints. -/
theorem reach_edge_preserved (g : DG) (hacyc : AcyclicDG g) :
    ∀ a b, ERel g a b → Reaches (removeShortcuts g) a b := by
  classical
  let betw : NKey → NKey → Finset NKey := fun a b =>
    g.nodes.toFinset.filter
      (fun v => Relation.TransGen (ERel g) a v ∧ Relation.TransGen (ERel g) v b)
  suffices H : ∀ n a b, (betw a b).card ≤ n → ERel g a b →
      Reaches (removeShortcuts g) a b by
    intro a b hab
    exact H (betw a b).card a b le_rfl hab
  intro n
  induction n with
  | zero =>
    intro a b hle hab
    by_cases hk : adjComp g a b = true
    · exfalso
      rcases adjComp_exists g hk with ⟨x, hxn, hax, hxb⟩
      have hxmem : x ∈ betw a b := by
        refine Finset.mem_filter.mpr ⟨List.mem_toFinset.mpr hxn, ?_, ?_⟩
        · exact Relation.TransGen.single hax
        · exact Relation.TransGen.single hxb
      have : 0 < (betw a b).card := Finset.card_pos.mpr ⟨x, hxmem⟩
      omega
    · exact Relation.ReflTransGen.single
        ((mem_removeShortcuts_iff g a b).mpr ⟨hab, Bool.eq_false_iff.mpr hk⟩)
  | succ n ih =>
    intro a b hle hab
    by_cases hk : adjComp g a b = true
    · rcases adjComp_exists g hk with ⟨x, hxn, hax, hxb⟩
      have hxmem : x ∈ betw a b := by
        refine Finset.mem_filter.mpr ⟨List.mem_toFinset.mpr hxn, ?_, ?_⟩
        · exact Relation.TransGen.single hax
        · exact Relation.TransGen.single hxb
      have hsub1 : betw a x ⊆ betw a b := by
        intro v hv
        rcases Finset.mem_filter.mp hv with ⟨hv1, hv2, hv3⟩
        exact Finset.mem_filter.mpr
          ⟨hv1, hv2, hv3.trans (Relation.TransGen.single hxb)⟩
      have hx1 : x ∉ betw a x := by
        intro hmem
        rcases Finset.mem_filter.mp hmem with ⟨_, _, h3⟩
        exact hacyc x h3
      have hcard1 : (betw a x).card < (betw a b).card :=
        Finset.card_lt_card ((Finset.ssubset_iff_of_subset hsub1).mpr ⟨x, hxmem, hx1⟩)
      have hsub2 : betw x b ⊆ betw a b := by
        intro v hv
        rcases Finset.mem_filter.mp hv with ⟨hv1, hv2, hv3⟩
        exact Finset.mem_filter.mpr
          ⟨hv1, (Relation.TransGen.single hax).trans hv2, hv3⟩
      have hx2 : x ∉ betw x b := by
        intro hmem
        rcases Finset.mem_filter.mp hmem with ⟨_, h2, _⟩
        exact hacyc x h2
      have hcard2 : (betw x b).card < (betw a b).card :=
        Finset.card_lt_card ((Finset.ssubset_iff_of_subset hsub2).mpr ⟨x, hxmem, hx2⟩)
      have r1 := ih a x (by omega) hax
      have r2 := ih x b (by omega) hxb
      exact r1.trans r2
    · exact Relation.ReflTransGen.single
        ((mem_removeShortcuts_iff g a b).mpr ⟨hab, Bool.eq_false_iff.mpr hk⟩)

/-- C8: `remove_shortcuts` is idempotent, and on a DAG it preserves
reachability: the reduced graph reaches exactly what the input reached. -/
theorem removeShortcuts_idem_and_preserves_reach (g : DG) :
    removeShortcuts (removeShortcuts g) = removeShortcuts g ∧
    (AcyclicDG g → ∀ a b : NKey,
      (Reaches (removeShortcuts g) a b ↔ Reaches g a b)) := by
  constructor
  · refine DG.eq_of_parts _ _ rfl ?_
    show (removeShortcuts g).edges.filter _ = (removeShortcuts g).edges
    refine List.filter_eq_self.mpr ?_
    intro e he
    by_contra hne
    have h2 : adjComp (removeShortcuts g) e.1 e.2 = true := by
      cases hcc : adjComp (removeShortcuts g) e.1 e.2 with
      | true => rfl
      | false => exact absurd (by simp [hcc]) hne
    rcases adjComp_exists (removeShortcuts g) h2 with ⟨x, hxn, hax, hxb⟩
    have hxg : x ∈ g.nodes := hxn
    have : adjComp g e.1 e.2 = true :=
      adjComp_intro g hxg (erel_removeShortcuts_sub g hax) (erel_removeShortcuts_sub g hxb)
    have hkept : adjComp g e.1 e.2 = false := removeShortcuts_kept g he
    rw [hkept] at this
    exact absurd this (by decide)
  · intro hacyc a b
    constructor
    · intro hr
      refine Relation.ReflTransGen.mono ?_ hr
      intro u v huv
      exact erel_removeShortcuts_sub g huv
    · intro hr
      induction hr with
      | refl => exact Relation.ReflTransGen.refl
      | tail _ hcb ih => exact ih.trans (reach_edge_preserved g hacyc _ _ hcb)

def kwA : NKey := ((XInt.int 0, XInt.int 1), "a")

def kwB : NKey := ((XInt.int 2, XInt.int 3), "b")

def kwC : NKey := ((XInt.int 4, XInt.int 5), "c")

def kwD : NKey := ((XInt.int 6, XInt.int 7), "d")

/-- A three-node chain a→b→c, acyclic. -/
def gChain : DG := ⟨[kwA, kwB, kwC], [(kwA, kwB), (kwB, kwC)]⟩

/-- A chain a→b→c→d plus the long shortcut a→d (implied only by a path of
length three). -/
def gDiamond : DG :=
  ⟨[kwA, kwB, kwC, kwD], [(kwA, kwB), (kwB, kwC), (kwC, kwD), (kwA, kwD)]⟩

def rankW : NKey → Nat := fun v => if v = kwA then 0 else if v = kwB then 1 else 2

/-- Witness for C8 at the concrete acyclic chain. -/
theorem removeShortcuts_idem_and_preserves_reach_witness :
    removeShortcuts (removeShortcuts gChain) = removeShortcuts gChain ∧
    (Reaches (removeShortcuts gChain) kwA kwC ↔ Reaches gChain kwA kwC) := by
  have h := removeShortcuts_idem_and_preserves_reach gChain
  exact ⟨h.1, h.2 (acyclic_of_rank gChain rankW (by decide)) kwA kwC⟩

/-- C4 counterexample: after `remove_shortcuts` on the DAG
a→b→c→d with shortcut a→d, the edge a→d is still present although d is
reachable from a through the intermediate node b (via b→c→d): the source
only removes edges bypassed by paths of length exactly two. -/
theorem remove_shortcuts_keeps_long_shortcut :
    ERel (removeShortcuts gDiamond) kwA kwD ∧
    Relation.TransGen (ERel (removeShortcuts gDiamond)) kwA kwB ∧
    Relation.TransGen (ERel (removeShortcuts gDiamond)) kwB kwD := by
  refine ⟨by decide, Relation.TransGen.single (by decide), ?_⟩
  exact Relation.TransGen.tail
    (Relation.TransGen.single (show ERel (removeShortcuts gDiamond) kwB kwC by decide))
    (show ERel (removeShortcuts gDiamond) kwC kwD by decide)

/-- C4 amended: after `remove_shortcuts` no surviving edge A→B has an
intermediate node X with surviving *direct* edges A→X and X→B; edges
implied only by longer paths may remain (see the counterexample). -/
theorem removeShortcuts_no_two_step (g : DG) (a b : NKey)
    (hab : ERel (removeShortcuts g) a b) :
    ∀ x ∈ (removeShortcuts g).nodes,
      ¬(ERel (removeShortcuts g) a x ∧ ERel (removeShortcuts g) x b) := by
  intro x hx hpair
  have hxg : x ∈ g.nodes := hx
  have h2 : adjComp g a b = true :=
    adjComp_intro g hxg (erel_removeShortcuts_sub g hpair.1)
      (erel_removeShortcuts_sub g hpair.2)
  have hkept : adjComp g a b = false := removeShortcuts_kept g hab
  rw [hkept] at h2
  exact absurd h2 (by decide)

/-- Witness for the amended C4 theorem at the concrete diamond graph. -/
theorem removeShortcuts_no_two_step_witness :
    ¬(ERel (removeShortcuts gDiamond) kwA kwC ∧
      ERel (removeShortcuts gDiamond) kwC kwB) :=
  removeShortcuts_no_two_step gDiamond kwA kwB (by decide) kwC (by decide)

/-! ### The document-to-matrix stage (`get_dense_mapping`, `get_dense_matrix`,
`get_elementary_nodes`, `matrix_to_dataframe`, `edges_from_dataframe`) -/

/-- A document: layer name to ordered `(start, end)` span list, in dict
insertion order. -/
abbrev Doc := List (String × List (Int × Int))

/-- The row stream every function of `trees.py` derives from the document:
one `(span, layer-name)` per annotation, in `rows.items()` order.  Both
`get_elementary_nodes` and `get_dense_matrix` enumerate this same stream,
so index `i` means the same item in both. -/
def allSpanItems (rows : Doc) : List ((Int × Int) × String) :=
  (rows.map (fun r => r.2.map (fun s => (s, r.1)))).flatten

/-- `get_elementary_nodes(rows)`: one `Node` per item, default weight 1. -/
def getElementaryNodes (rows : Doc) : List PNode :=
  (allSpanItems rows).map (fun it => ⟨(XInt.int it.1.1, XInt.int it.1.2), it.2, 1⟩)

/-- The distinct boundary offsets (`starts | ends` of `get_dense_mapping`). -/
def boundValues (rows : Doc) : List Int :=
  (((allSpanItems rows).map (fun it => [it.1.1, it.1.2])).flatten).dedup

/-- `sorted(starts | ends)`. -/
def sortedBounds (rows : Doc) : List Int :=
  (boundValues rows).insertionSort (fun a b => a ≤ b)

/-- `mapping[v]`: the index of boundary `v` in the sorted boundary list. -/
def boundIdx (rows : Doc) (v : Int) : Nat := (sortedBounds rows).indexOf v

/-- `len(reverse_mapping) - 1`: the width of a dense boolean row. -/
def denseLen (rows : Doc) : Nat := (sortedBounds rows).length - 1

/-- `np.where(x)[0]` for the dense row `x` of a span `(a, b)`:
`x[mapping[a]:mapping[b]] = 1` in a zero row of width `denseLen`. -/
def rowCover (rows : Doc) (a b : Int) : List Nat :=
  (List.range (denseLen rows)).filter
    (fun p => decide (boundIdx rows a ≤ p ∧ p < boundIdx rows b))

/-- The span of item `i` (out-of-range reads default to `(0, 0)`; the
source would raise there). -/
def spanAt (rows : Doc) (i : Nat) : Int × Int :=
  (((allSpanItems rows).get? i).map (fun it => it.1)).getD (0, 0)

/-- The layer name of item `i`. -/
def nameAt (rows : Doc) (i : Nat) : String :=
  (((allSpanItems rows).get? i).map (fun it => it.2)).getD ""

/-- `start_index[i] = np.where(row_i)[0][0]`. -/
def startIdx (rows : Doc) (i : Nat) : Nat :=
  ((rowCover rows (spanAt rows i).1 (spanAt rows i).2).head?).getD 0

/-- `end_index[i] = np.where(row_i)[0][-1]`. -/
def endIdx (rows : Doc) (i : Nat) : Nat :=
  ((rowCover rows (spanAt rows i).1 (spanAt rows i).2).getLast?).getD 0

/-- `res[i][j] = start_index[j] > end_index[i]`: the candidate-successor
matrix of `get_dense_matrix`. -/
def denseEntry (rows : Doc) (i j : Nat) : Bool :=
  decide (endIdx rows i < startIdx rows j)

theorem filter_range_eq (n a b : Nat) :
    (List.range n).filter (fun p => decide (a ≤ p ∧ p < b)) =
      List.range' a (min b n - a) := by
  induction n with
  | zero => simp
  | succ n ih =>
    rw [List.range_succ, List.filter_append, ih]
    by_cases hb : n < b
    · by_cases ha : a ≤ n
      · have h1 : min b n = n := by omega
        have h2 : min b (n + 1) = min b (n + 1) := rfl
        have hfl : (List.filter (fun p => decide (a ≤ p ∧ p < b)) [n]) = [n] := by
          simp [ha, hb]
        rw [hfl, h1]
        have h3 : min b (n + 1) - a = (n - a) + 1 := by omega
        rw [h3, List.range'_concat]
        have h4 : a + 1 * (n - a) = n := by omega
        rw [h4]
      · have hfl : (List.filter (fun p => decide (a ≤ p ∧ p < b)) [n]) = [] := by
          simp [ha]
        have h1 : min b n - a = 0 := by omega
        have h2 : min b (n + 1) - a = 0 := by omega
        rw [hfl, h1, h2]
        simp
    · have hfl : (List.filter (fun p => decide (a ≤ p ∧ p < b)) [n]) = [] := by
        simp [hb]
      have h1 : min b n = min b (n + 1) := by omega
      rw [hfl, h1]
      simp

theorem range'_head (a k : Nat) (h : 0 < k) : (List.range' a k).head? = some a := by
  cases k with
  | zero => omega
  | succ m => rfl

theorem range'_getLast (a k : Nat) (h : 0 < k) :
    (List.range' a k).getLast? = some (a + k - 1) := by
  cases k with
  | zero => omega
  | succ m =>
    rw [List.range'_concat]
    simp

theorem sortedBounds_sorted (rows : Doc) :
    (sortedBounds rows).Sorted (fun a b : Int => a ≤ b) :=
  List.sorted_insertionSort _ _

theorem sortedBounds_nodup (rows : Doc) : (sortedBounds rows).Nodup :=
  ((List.perm_insertionSort _ _).nodup_iff).mpr (List.nodup_dedup _)

theorem mem_sortedBounds (rows : Doc) (v : Int) :
    v ∈ sortedBounds rows ↔ v ∈ boundValues rows :=
  (List.perm_insertionSort _ _).mem_iff

theorem bounds_mem_of_item (rows : Doc) {it : (Int × Int) × String}
    (h : it ∈ allSpanItems rows) :
    it.1.1 ∈ sortedBounds rows ∧ it.1.2 ∈ sortedBounds rows := by
  constructor <;>
  · rw [mem_sortedBounds]
    refine List.mem_dedup.mpr (List.mem_flatten.mpr ⟨[it.1.1, it.1.2], ?_, by simp⟩)
    exact List.mem_map.mpr ⟨it, h, rfl⟩

theorem indexOf_lt_indexOf_of_lt (L : List Int)
    (hs : L.Sorted (fun a b : Int => a ≤ b)) (hn : L.Nodup)
    {x y : Int} (hx : x ∈ L) (hy : y ∈ L) (hxy : x < y) :
    L.indexOf x < L.indexOf y := by
  have hslt : L.Sorted (fun a b : Int => a < b) :=
    (hs.and hn).imp (fun h => lt_of_le_of_ne h.1 h.2)
  have hix := List.indexOf_lt_length.mpr hx
  have hiy := List.indexOf_lt_length.mpr hy
  have hgx : L.get ⟨L.indexOf x, hix⟩ = x := List.indexOf_get hix
  have hgy : L.get ⟨L.indexOf y, hiy⟩ = y := List.indexOf_get hiy
  have hlt : (⟨L.indexOf x, hix⟩ : Fin L.length) < ⟨L.indexOf y, hiy⟩ :=
    hslt.get_strictMono.lt_iff_lt.mp (by rw [hgx, hgy]; exact hxy)
  exact hlt

theorem indexOf_lt_iff_of_sorted (L : List Int)
    (hs : L.Sorted (fun a b : Int => a ≤ b)) (hn : L.Nodup)
    {x y : Int} (hx : x ∈ L) (hy : y ∈ L) :
    (L.indexOf x < L.indexOf y ↔ x < y) := by
  constructor
  · intro h
    by_contra hnot
    push_neg at hnot
    rcases lt_or_eq_of_le hnot with hlt | heq
    · exact absurd (indexOf_lt_indexOf_of_lt L hs hn hy hx hlt) (by omega)
    · subst heq
      omega
  · exact indexOf_lt_indexOf_of_lt L hs hn hx hy

/-- For a well-formed item of the document, the `np.where` bookkeeping of
`get_dense_matrix` yields `start_index = mapping[start]` and
`end_index = mapping[end] - 1`. -/
theorem item_idx_facts (rows : Doc)
    (hwf : ∀ it ∈ allSpanItems rows, it.1.1 < it.1.2)
    (i : Nat) (hi : i < (allSpanItems rows).length) :
    (spanAt rows i).1 ∈ sortedBounds rows ∧
    (spanAt rows i).2 ∈ sortedBounds rows ∧
    boundIdx rows (spanAt rows i).1 < boundIdx rows (spanAt rows i).2 ∧
    startIdx rows i = boundIdx rows (spanAt rows i).1 ∧
    endIdx rows i = boundIdx rows (spanAt rows i).2 - 1 := by
  have hgi : (allSpanItems rows)[i]? = some ((allSpanItems rows).get ⟨i, hi⟩) := by
    rw [List.getElem?_eq_getElem hi]
    rfl
  have hmem : (allSpanItems rows).get ⟨i, hi⟩ ∈ allSpanItems rows := List.get_mem _ _ _
  have hsi : spanAt rows i = ((allSpanItems rows).get ⟨i, hi⟩).1 := by
    simp [spanAt, hgi]
  obtain ⟨hm1, hm2⟩ := bounds_mem_of_item rows hmem
  have hlt : boundIdx rows ((allSpanItems rows).get ⟨i, hi⟩).1.1 <
      boundIdx rows ((allSpanItems rows).get ⟨i, hi⟩).1.2 :=
    indexOf_lt_indexOf_of_lt _ (sortedBounds_sorted rows) (sortedBounds_nodup rows)
      hm1 hm2 (hwf _ hmem)
  have hblen : boundIdx rows ((allSpanItems rows).get ⟨i, hi⟩).1.2 <
      (sortedBounds rows).length := List.indexOf_lt_length.mpr hm2
  have hcov : rowCover rows ((allSpanItems rows).get ⟨i, hi⟩).1.1
      ((allSpanItems rows).get ⟨i, hi⟩).1.2 =
      List.range' (boundIdx rows ((allSpanItems rows).get ⟨i, hi⟩).1.1)
        (boundIdx rows ((allSpanItems rows).get ⟨i, hi⟩).1.2 -
          boundIdx rows ((allSpanItems rows).get ⟨i, hi⟩).1.1) := by
    rw [rowCover, filter_range_eq]
    congr 1
    unfold denseLen
    omega
  rw [hsi]
  refine ⟨hm1, hm2, hlt, ?_, ?_⟩
  · unfold startIdx
    rw [hsi, hcov, range'_head _ _ (by omega)]
    rfl
  · unfold endIdx
    rw [hsi, hcov, range'_getLast _ _ (by omega)]
    simp only [Option.getD_some]
    omega

/-- C2 amended: for every well-formed document, `get_dense_matrix` marks
item `j` as a candidate successor of item `i` exactly when `j`'s start
offset is greater than **or equal to** `i`'s end offset.  The source's
strict comparison `start_index > end_index` happens in dense-mapping
coordinates, where `end_index` is already `mapping[end] - 1`, so exactly
touching spans ARE candidate successors of each other. -/
theorem denseEntry_iff_le (rows : Doc)
    (hwf : ∀ it ∈ allSpanItems rows, it.1.1 < it.1.2)
    (i j : Nat) (hi : i < (allSpanItems rows).length)
    (hj : j < (allSpanItems rows).length) :
    (denseEntry rows i j = true) ↔ (spanAt rows i).2 ≤ (spanAt rows j).1 := by
  obtain ⟨hmi1, hmi2, hlt_i, hst_i, hen_i⟩ := item_idx_facts rows hwf i hi
  obtain ⟨hmj1, hmj2, hlt_j, hst_j, hen_j⟩ := item_idx_facts rows hwf j hj
  have hord : boundIdx rows (spanAt rows j).1 < boundIdx rows (spanAt rows i).2 ↔
      (spanAt rows j).1 < (spanAt rows i).2 :=
    indexOf_lt_iff_of_sorted _ (sortedBounds_sorted rows) (sortedBounds_nodup rows)
      hmj1 hmi2
  simp only [denseEntry, decide_eq_true_eq]
  rw [hst_j, hen_i]
  constructor
  · intro h
    by_contra hnot
    push_neg at hnot
    have := hord.mpr hnot
    omega
  · intro h
    have hnot : ¬ ((spanAt rows j).1 < (spanAt rows i).2) := not_lt.mpr h
    have h2 : ¬ (boundIdx rows (spanAt rows j).1 < boundIdx rows (spanAt rows i).2) :=
      fun hc => hnot (hord.mp hc)
    omega

/-- A two-item document whose spans touch exactly. -/
def docTouch : Doc := [("A", [(0, 5)]), ("B", [(5, 9)])]

/-- C2 counterexample: for the touching spans A@[0,5) and B@[5,9) the
candidate matrix is `True` although B's start (5) is *not* strictly
greater than A's end (5). -/
theorem candidate_touching_spans :
    denseEntry docTouch 0 1 = true ∧
    (spanAt docTouch 0).2 = 5 ∧ (spanAt docTouch 1).1 = 5 ∧
    ¬((spanAt docTouch 0).2 < (spanAt docTouch 1).1) := by decide

/-- Witness for the amended C2 theorem at the touching-span document. -/
theorem denseEntry_iff_le_witness :
    denseEntry docTouch 0 1 = true ↔ (spanAt docTouch 0).2 ≤ (spanAt docTouch 1).1 :=
  denseEntry_iff_le docTouch (by decide) 0 1 (by decide) (by decide)

/-- One row of the dataframe built by `matrix_to_dataframe`:
`(n1, s1, e1, n2, s2, e2, a, b)`. -/
structure DfRow where
  n1 : String
  s1 : Int
  e1 : Int
  n2 : String
  s2 : Int
  e2 : Int
  a : Nat
  b : Nat
deriving DecidableEq, Repr

/-- The dataframe record for a candidate pair `(i, j)` (out-of-range reads
default; the source would raise). -/
def mkRow (items : List ((Int × Int) × String)) (i j : Nat) : DfRow :=
  let iti := (items.get? i).getD ((0, 0), "")
  let itj := (items.get? j).getD ((0, 0), "")
  ⟨iti.2, iti.1.1, iti.1.2, itj.2, itj.1.1, itj.1.2, i, j⟩

/-- `matrix_to_dataframe(res, items)`: one record per `np.where(res)` pair,
in row-major order. -/
def matrixToDataframe (res : Nat → Nat → Bool)
    (items : List ((Int × Int) × String)) : List DfRow :=
  ((List.range items.length).map (fun i =>
    (List.range items.length).filterMap (fun j =>
      if res i j then some (mkRow items i j) else none))).flatten

/-- `y.e2.min()` inside `edges_from_dataframe`: the minimum successor end
offset within one `(e1, n2)` group (predecessor end offset and successor
label). -/
def groupMinE2 (df : List DfRow) (e1v : Int) (n2v : String) : Int :=
  ((((df.filter (fun q => decide (q.e1 = e1v ∧ q.n2 = n2v))).map
      (fun q => q.e2))).min?).getD 0

/-- The retention rule of `edges_from_dataframe`:
`df.groupby('e1').apply(lambda x: x.groupby('n2').apply(lambda y: y[y.s2 <= y.e2.min()]))`.
A candidate row survives iff its successor start is at most the minimum
successor end within its `(e1, n2)` group.  (The pandas group-apply also
reorders the rows by group key; the set of retained rows — all any later
stage consumes, since edges feed a graph — is order-independent, so the
embedding keeps the dataframe order.) -/
def keptRows (df : List DfRow) : List DfRow :=
  df.filter (fun r => decide (r.s2 ≤ groupMinE2 df r.e1 r.n2))

/-- `edges_from_dataframe(df, items)`: the kept rows, zipped back into
`(items[a], items[b])` node pairs. -/
def edgesFromDataframe (items : List PNode) (df : List DfRow) : List (NKey × NKey) :=
  (keptRows df).map (fun r =>
    (((items.get? r.a).getD START).key, ((items.get? r.b).getD START).key))

theorem mem_matrixToDataframe (res : Nat → Nat → Bool)
    (items : List ((Int × Int) × String)) (r : DfRow) :
    r ∈ matrixToDataframe res items ↔
      ∃ i, i < items.length ∧ ∃ j, j < items.length ∧
        res i j = true ∧ r = mkRow items i j := by
  unfold matrixToDataframe
  rw [List.mem_flatten]
  constructor
  · rintro ⟨l, hl, hr⟩
    rcases List.mem_map.mp hl with ⟨i, hi, rfl⟩
    rcases List.mem_filterMap.mp hr with ⟨j, hj, hcond⟩
    rw [List.mem_range] at hi
    rw [List.mem_range] at hj
    by_cases hres : res i j = true
    · rw [if_pos hres] at hcond
      exact ⟨i, hi, j, hj, hres, (Option.some_inj.mp hcond).symm⟩
    · rw [if_neg hres] at hcond
      cases hcond
  · rintro ⟨i, hi, j, hj, hres, rfl⟩
    refine ⟨_, List.mem_map.mpr ⟨i, List.mem_range.mpr hi, rfl⟩, ?_⟩
    exact List.mem_filterMap.mpr ⟨j, List.mem_range.mpr hj, by rw [if_pos hres]⟩

/-- C5 amended: a candidate pair `(i, j)` keeps its direct edge iff it is a
candidate (`res i j`) and the successor's start offset is at most the
minimum successor **end** offset among candidate rows agreeing on the
predecessor's **end offset** and the successor's **label** — the grouping
is by `(e1, n2)`, not by the predecessor node, and the threshold is
`min e2`, not `min s2`. -/
theorem keptRows_mem_iff (res : Nat → Nat → Bool)
    (items : List ((Int × Int) × String)) (i j : Nat)
    (hi : i < items.length) (hj : j < items.length) :
    (mkRow items i j ∈ keptRows (matrixToDataframe res items)) ↔
      (res i j = true ∧
       (mkRow items i j).s2 ≤ groupMinE2 (matrixToDataframe res items)
         (mkRow items i j).e1 (mkRow items i j).n2) := by
  unfold keptRows
  rw [List.mem_filter]
  constructor
  · rintro ⟨hmem, hcond⟩
    rcases (mem_matrixToDataframe res items _).mp hmem with ⟨i', hi', j', hj', hres, heq⟩
    have hii : i = i' := by
      have := congrArg DfRow.a heq
      simpa [mkRow] using this
    have hjj : j = j' := by
      have := congrArg DfRow.b heq
      simpa [mkRow] using this
    subst hii
    subst hjj
    exact ⟨hres, of_decide_eq_true hcond⟩
  · rintro ⟨hres, hle⟩
    refine ⟨(mem_matrixToDataframe res items _).mpr ⟨i, hi, j, hj, hres, rfl⟩, ?_⟩
    exact decide_eq_true hle

/-- A document with one predecessor and two same-label candidate
successors at different distances. -/
def docNear : Doc := [("A", [(0, 5)]), ("T", [(10, 20), (15, 16)])]

/-- C5 counterexample: predecessor A@[0,5) has candidate successors
T@[10,20) (start 10) and T@[15,16) (start 15); the minimum candidate start
is 10, so per the claim only the start-10 row may survive — but the code
keeps both rows, since each start is at most the group's minimum end 16. -/
theorem edges_keep_non_minimal_start :
    ((matrixToDataframe (denseEntry docNear) (allSpanItems docNear)).map
        (fun r => (r.e1, r.s2)) = [(5, 10), (5, 15)]) ∧
    keptRows (matrixToDataframe (denseEntry docNear) (allSpanItems docNear)) =
      matrixToDataframe (denseEntry docNear) (allSpanItems docNear) := by decide

/-- Witness for the amended C5 theorem at the concrete document. -/
theorem keptRows_mem_iff_witness :
    (mkRow (allSpanItems docNear) 0 2 ∈
        keptRows (matrixToDataframe (denseEntry docNear) (allSpanItems docNear))) ↔
      (denseEntry docNear 0 2 = true ∧
       (mkRow (allSpanItems docNear) 0 2).s2 ≤
         groupMinE2 (matrixToDataframe (denseEntry docNear) (allSpanItems docNear))
           (mkRow (allSpanItems docNear) 0 2).e1
           (mkRow (allSpanItems docNear) 0 2).n2) :=
  keptRows_mem_iff (denseEntry docNear) (allSpanItems docNear) 0 2 (by decide) (by decide)

/-! ### Graph assembly (`create_entry_and_exit_nodes`, `add_blanks`,
`graph_from_document`) -/

/-- `Node.__lt__`: compare spans lexicographically (the name and weight are
ignored by the ordering). -/
def nodeLT (x y : PNode) : Bool := spanLT x.span y.span

/-- Stable insertion used to model Python's stable `sorted(items)` (which
only calls `__lt__`). -/
def insSorted (l : List PNode) (x : PNode) : List PNode :=
  match l with
  | [] => [x]
  | y :: ys => if nodeLT x y then x :: y :: ys else y :: insSorted ys x

/-- `sorted(items)`. -/
def sortNodes (items : List PNode) : List PNode := items.foldl insSorted []

/-- Nodes reachable from the seed set, computed by saturation; fuel
`g.nodes.length` reaches the fixed point on any graph. -/
def reachListAux : Nat → DG → List NKey → List NKey
  | 0, _, acc => acc
  | n + 1, g, acc =>
    let nw := g.nodes.filter (fun v =>
      decide (v ∉ acc) && g.edges.any (fun e => decide (e.1 ∈ acc) && decide (e.2 = v)))
    if nw = [] then acc else reachListAux n g (acc ++ nw)

/-- `nx.descendants(graph, s)`: nodes reachable from `s`, excluding `s`
itself (the graphs here are acyclic). -/
def descendants (g : DG) (s : NKey) : List NKey :=
  (reachListAux g.nodes.length g [s]).filter (fun v => decide (v ≠ s))

def coReachListAux : Nat → DG → List NKey → List NKey
  | 0, _, acc => acc
  | n + 1, g, acc =>
    let nw := g.nodes.filter (fun v =>
      decide (v ∉ acc) && g.edges.any (fun e => decide (e.2 ∈ acc) && decide (e.1 = v)))
    if nw = [] then acc else coReachListAux n g (acc ++ nw)

/-- `nx.ancestors(graph, s)`: nodes that reach `s`, excluding `s`. -/
def ancestors (g : DG) (s : NKey) : List NKey :=
  (coReachListAux g.nodes.length g [s]).filter (fun v => decide (v ≠ s))

/-- `create_entry_and_exit_nodes(graph, items)`.  The Python `for node in
(set(...) - ...)` loops iterate a set whose order is unspecified; the
embedding iterates in node-insertion order (the produced edge set is the
same). -/
def createEntryExit (g : DG) (items : List PNode) : DG :=
  let g1 := g.addNodes [START.key, ENDN.key]
  let sorted := sortNodes items
  let g2 := g1.addEdge START.key ((sorted.head?.getD START).key)
  let g3 := (g2.nodes.filter (fun v =>
      decide (v ≠ START.key) && decide (v ∉ descendants g2 START.key))).foldl
    (fun h v => h.addEdge START.key v) g2
  let g4 := g3.addEdge ((sorted.getLast?.getD ENDN).key) ENDN.key
  (g4.nodes.filter (fun v =>
      decide (v ≠ ENDN.key) && decide (v ∉ ancestors g4 ENDN.key))).foldl
    (fun h v => h.addEdge v ENDN.key) g4

/-- `s2 - e1 > 1` under Python float semantics (`inf - inf = nan`, and
`nan > 1` is false); first argument `e1`, second `s2`. -/
def subGT1 : XInt → XInt → Bool
  | XInt.int e, XInt.int s => decide (1 < s - e)
  | XInt.int _, XInt.pinf => true
  | XInt.int _, XInt.ninf => false
  | XInt.ninf, XInt.int _ => true
  | XInt.ninf, XInt.pinf => true
  | XInt.ninf, XInt.ninf => false
  | XInt.pinf, _ => false

/-- `graph.remove_edge(a, b)`. -/
def DG.removeEdge (g : DG) (a b : NKey) : DG :=
  { g with edges := g.edges.filter (fun e => decide (e ≠ (a, b))) }

/-- `add_blanks(graph)`: iterates a snapshot of the node list (networkx
1.x returns lists); for each non-blank, non-START node and each current
successor with a gap larger than one, splice a `"_"` node over the gap. -/
def addBlanks (g : DG) : DG :=
  g.nodes.foldl (fun h v =>
    if v.2 ≠ "_" ∧ v ≠ START.key then
      (h.succs v).foldl (fun h2 sc =>
        if subGT1 v.1.2 sc.1.1 && decide (sc ≠ ENDN.key) then
          let nb : NKey := ((v.1.2, sc.1.1), "_")
          (((h2.addNode nb).addEdges [(v, nb), (nb, sc)]).removeEdge v sc)
        else h2) h
    else h) g

/-- `graph_from_document(rows)`: dense matrix → dataframe → edges → graph;
then sentinels, reduction, blanks, reduction. -/
def graphFromDocument (rows : Doc) : DG :=
  let items := getElementaryNodes rows
  let df := matrixToDataframe (denseEntry rows) (allSpanItems rows)
  let edges := edgesFromDataframe items df
  let g := (DG.mk [] []).addNodes (items.map PNode.key)
  let g := g.addEdges edges
  let g := createEntryExit g items
  let g := removeShortcuts g
  let g := addBlanks g
  removeShortcuts g

/-! ### Grammar (`Rule`, `Grammar.get_rule_application_order`) -/

/-- A concrete `Rule`: `lhs`, ordered `rhs`, weight. -/
structure PRule where
  lhs : String
  rhs : List String
  weight : Int
deriving DecidableEq, Repr

/-- The left-hand sides (`self.nonterminals`), in first-occurrence order as
`toolz.groupby` produces them. -/
def nonterminalsOf (rs : List PRule) : List String :=
  (rs.map (fun r => r.lhs)).dedup

/-- `self.terminals`: right-hand-side symbols never used as an lhs. -/
def terminalsOf (rs : List PRule) : List String :=
  (((rs.map (fun r => r.rhs)).flatten).dedup).filter
    (fun s => decide (s ∉ nonterminalsOf rs))

/-- `rules_deps`: for each nonterminal, the symbols of its rules' rhs minus
the terminals (sets modelled as deduplicated lists). -/
def rulesDeps (rs : List PRule) : List (String × List String) :=
  (nonterminalsOf rs).map (fun l =>
    (l, ((((rs.filter (fun r => decide (r.lhs = l))).map (fun r => r.rhs)).flatten).dedup).filter
          (fun s => decide (s ∉ terminalsOf rs))))

/-- One scan of the `for k, v in rules_deps.items()` loop: emit the first
nonterminal whose stored dependency list is empty and not yet ordered
(Python `break`s there, leaving the rest of the dict untouched this pass);
every item checked before the break has the already-ordered symbols
subtracted from its dependency list. -/
def passRun : List (String × List String) → List String →
    List (String × List String) × Option String
  | [], _ => ([], none)
  | (k, v) :: rest, order =>
    if v = [] ∧ k ∉ order then ((k, v) :: rest, some k)
    else
      let v2 := v.filter (fun s => decide (s ∉ order))
      let r := passRun rest order
      ((k, v2) :: r.1, r.2)

/-- The `while len(order) != len(self.nonterminals)` loop, with fuel: the
source has no fuel and loops forever whenever no pass can make progress. -/
def orderLoop : Nat → List (String × List String) → List String → Nat →
    Option (List String)
  | 0, _, _, _ => none
  | fuel + 1, deps, order, total =>
    if order.length = total then some order
    else
      let r := passRun deps order
      orderLoop fuel r.1 (order ++ r.2.toList) total

/-- `Grammar.get_rule_application_order`, fuelled. -/
def getRuleApplicationOrder (fuel : Nat) (rs : List PRule) : Option (List String) :=
  orderLoop fuel (rulesDeps rs) [] (nonterminalsOf rs).length

/-- The minimal cyclic rule set `A -> B`, `B -> A`. -/
def cycRules : List PRule := [⟨"A", ["B"], 1⟩, ⟨"B", ["A"], 1⟩]

theorem orderLoop_cyc (fuel : Nat) :
    orderLoop fuel (rulesDeps cycRules) [] 2 = none := by
  induction fuel with
  | zero => rfl
  | succ n ih =>
    have hstep : passRun (rulesDeps cycRules) [] = (rulesDeps cycRules, none) := by decide
    rw [orderLoop]
    simp only [hstep]
    simpa using ih

/-- C3: on the cyclic rule set `A -> B`, `B -> A` the application-order
`while` loop makes no progress in any pass (the dependency lists are a
fixed point and the order never grows), so it never terminates: the
fuelled model is still running for every amount of fuel, where the source
loops forever rather than reporting a configuration error. -/
theorem applicationOrder_loops_on_cycle (fuel : Nat) :
    getRuleApplicationOrder fuel cycRules = none := by
  have h2 : (nonterminalsOf cycRules).length = 2 := by decide
  unfold getRuleApplicationOrder
  rw [h2]
  exact orderLoop_cyc fuel

/-! ### Chart resolution (`get_valid_paths`, `get_nonterminal_nodes`) -/

/-- `new_graph.remove_nodes_from(vs)`: drop the nodes and incident edges. -/
def removeNodes (g : DG) (vs : List NKey) : DG :=
  { nodes := g.nodes.filter (fun v => decide (v ∉ vs)),
    edges := g.edges.filter (fun e => decide (e.1 ∉ vs) && decide (e.2 ∉ vs)) }

/-- The breadth-first queue loop of `get_valid_paths`: pop the front path;
for each successor of its last node, extend the path while it is still
shorter than the rule, or record `path[1:]` when one step past the rule
length the successor is END. -/
def bfsPaths : Nat → DG → List String → List (List NKey) → List (List NKey) →
    List (List NKey)
  | 0, _, _, _, acc => acc
  | fuel + 1, g, etalon, paths, acc =>
    match paths with
    | [] => acc
    | cur :: rest =>
      let lastN := cur.getLast?.getD START.key
      let st := (g.succs lastN).foldl
        (fun (st : List (List NKey) × List (List NKey)) sc =>
          if cur.length ≤ etalon.length then
            if sc.2 = (etalon.get? (cur.length - 1)).getD "" then
              (st.1 ++ [cur ++ [sc]], st.2)
            else st
          else if cur.length = etalon.length + 1 ∧ sc = ENDN.key then
            (st.1, st.2 ++ [cur.drop 1])
          else st)
        (rest, acc)
      bfsPaths fuel g etalon st.1 st.2

/-- `get_valid_paths(graph, rule)`: re-wire START to every node labelled
`rhs[0]` and every node labelled `rhs[-1]` to END, then enumerate the
label-matching chains of length `len(rhs)`. -/
def getValidPaths (fuel : Nat) (g : DG) (rule : PRule) : List (List NKey) :=
  let g2 := (removeNodes g [START.key, ENDN.key]).addNodes [START.key, ENDN.key]
  let entries := g2.nodes.filter (fun v => decide (v.2 = (rule.rhs.head?).getD ""))
  let exits := g2.nodes.filter (fun v => decide (v.2 = (rule.rhs.getLast?).getD ""))
  let g3 := g2.addEdges (entries.map (fun v => (START.key, v)))
  let g4 := g3.addEdges (exits.map (fun v => (v, ENDN.key)))
  bfsPaths fuel g4 rule.rhs [[START.key]] []

/-- The candidate map `nodes = defaultdict(list)`: association list keyed
by the node's `(span, name)`, in key-insertion order, each entry keeping
the originally inserted `Node` object (with its weight) and the derivation
list. -/
abbrev CandMap := List (PNode × List (PRule × List NKey))

/-- `nodes[node].append(d)` for a Python dict keyed by `Node.__eq__`: an
existing entry keeps its stored key object (and hence its weight) and only
appends; a new key is appended at the end. -/
def candInsert (m : CandMap) (n : PNode) (d : PRule × List NKey) : CandMap :=
  match m with
  | [] => [(n, [d])]
  | (n0, ds) :: rest =>
    if n0.key = n.key then (n0, ds ++ [d]) :: rest
    else (n0, ds) :: candInsert rest n d

/-- Dict lookup by node key. -/
def candLookup (m : CandMap) (k : NKey) : Option (PNode × List (PRule × List NKey)) :=
  m.find? (fun p => decide (p.1.key = k))

/-- `get_nonterminal_nodes(graph, grammar)`: for each nonterminal in
application order and each of its rules, find the valid paths in the
current graph, synthesise a node spanning the path with the rule's weight,
record the derivation, and splice the node into the graph (edges from the
predecessors of the path head and to the successors of the path tail,
both read before the new edges are added). -/
def getNonterminalNodes (fuel : Nat) (g : DG) (order : List String)
    (rules : List PRule) : CandMap × DG :=
  order.foldl (fun st nt =>
    (rules.filter (fun r => decide (r.lhs = nt))).foldl (fun st2 rule =>
      (getValidPaths fuel st2.2 rule).foldl (fun st3 path =>
        let hd := path.head?.getD START.key
        let tl := path.getLast?.getD START.key
        let node : PNode := ⟨(hd.1.1, tl.1.2), nt, rule.weight⟩
        let m2 := candInsert st3.1 node (rule, path)
        let g2 := st3.2.addNode node.key
        let g2 := g2.addEdges ((st3.2.preds hd).map (fun p => (p, node.key)))
        let g2 := g2.addEdges ((st3.2.succs tl).map (fun sc => (node.key, sc)))
        (m2, g2)) st2) st) (([] : CandMap), g)

/-! ### Tree selection (`choose_parse_tree`) -/

/-- `Node.__gt__` as used by Python list comparison on tie-broken tuples:
`a > b` compares spans only. -/
def nkGT (a b : NKey) : Bool := spanLT b.1 a.1

/-- Python list `>` over nodes: strip `__eq__`-equal heads, decide by
`__gt__` at the first difference, longer list wins on exhausted prefix. -/
def listGTNodes : List NKey → List NKey → Bool
  | _ :: _, [] => true
  | [], _ => false
  | a :: as1, b :: bs1 => if a = b then listGTNodes as1 bs1 else nkGT a b

/-- `max((rule.weight, children) for ...)`: Python `max` keeps the first
maximal element under tuple comparison. -/
def bestDeriv : List (PRule × List NKey) → Option (List NKey)
  | [] => none
  | d :: rest => some ((rest.foldl (fun best d2 =>
      if d2.1.weight > best.1 ∨ (d2.1.weight = best.1 ∧ listGTNodes d2.2 best.2) then
        (d2.1.weight, d2.2)
      else best) (d.1.weight, d.2)).2)

/-- `max((i for i in nodes.keys() if i.name == start_symbol), key=weight)`:
first maximum in key-insertion order; `none` when no key matches (the
source raises `AssertionError('Parse failed')` just before). -/
def chooseRoot (m : CandMap) (startSym : String) : Option PNode :=
  (m.map (fun p => p.1)).foldl (fun acc n =>
    if n.name = startSym then
      match acc with
      | none => some n
      | some b => if n.weight > b.weight then some n else some b
    else acc) none

/-- The `while stack` loop of `choose_parse_tree`: pop the front node, add
it, and when it has recorded derivations add edges to the best
derivation's children and enqueue them.  There is no revisit check. -/
def treeLoop : Nat → CandMap → List NKey → DG → DG
  | 0, _, _, g => g
  | _ + 1, _, [], g => g
  | fuel + 1, m, k :: rest, g =>
    let g1 := g.addNode k
    match candLookup m k with
    | some (_, d :: ds) =>
      match bestDeriv (d :: ds) with
      | some children =>
        treeLoop fuel m (rest ++ children) (g1.addEdges (children.map (fun c => (k, c))))
      | none => treeLoop fuel m rest g1
    | _ => treeLoop fuel m rest g1

/-- `choose_parse_tree(nodes, grammar)`: `none` models the
`AssertionError('Parse failed, change grammar.')`. -/
def chooseParseTree (fuel : Nat) (m : CandMap) (startSym : String) : Option DG :=
  match chooseRoot m startSym with
  | none => none
  | some r => some (treeLoop fuel m [r.key] (DG.mk [] []))

/-- `document_to_graph(document, grammar)`. -/
def documentToGraph (fuelV fuelT : Nat) (rows : Doc) (order : List String)
    (rules : List PRule) (startSym : String) : Option DG :=
  let g := graphFromDocument rows
  let cm := (getNonterminalNodes fuelV g order rules).1
  chooseParseTree fuelT cm startSym

/-! ### C10: the candidate map keeps the first node object per key -/

theorem candLookup_cons (n0 : PNode) (ds : List (PRule × List NKey))
    (rest : CandMap) (k : NKey) :
    candLookup ((n0, ds) :: rest) k =
      if n0.key = k then some (n0, ds) else candLookup rest k := by
  by_cases h : n0.key = k
  · rw [if_pos h]
    exact List.find?_cons_of_pos _ (decide_eq_true h)
  · rw [if_neg h]
    exact List.find?_cons_of_neg _ (by simpa using h)

theorem candLookup_candInsert (m : CandMap) (n : PNode) (d : PRule × List NKey)
    (k : NKey) :
    candLookup (candInsert m n d) k =
      if n.key = k then
        match candLookup m k with
        | some (n0, ds) => some (n0, ds ++ [d])
        | none => some (n, [d])
      else candLookup m k := by
  induction m with
  | nil =>
    by_cases hk : n.key = k
    · simp [candInsert, candLookup_cons, candLookup, hk]
    · simp [candInsert, candLookup_cons, candLookup, hk]
  | cons p rest ih =>
    obtain ⟨n0, ds⟩ := p
    simp only [candInsert]
    by_cases h0 : n0.key = n.key
    · rw [if_pos h0, candLookup_cons, candLookup_cons]
      by_cases hk : n0.key = k
      · rw [if_pos hk, if_pos hk, if_pos (h0.symm.trans hk)]
      · rw [if_neg hk, if_neg hk, if_neg (fun hc => hk (h0.trans hc))]
    · rw [if_neg h0, candLookup_cons, candLookup_cons]
      by_cases hk : n0.key = k
      · rw [if_pos hk, if_pos hk, if_neg (fun hc => h0 (hk.trans hc.symm))]
      · rw [if_neg hk, if_neg hk, ih]

/-- The accumulation pattern of `get_nonterminal_nodes` over an arbitrary
sequence of `(node, derivation)` insertions. -/
def buildCand (ins : List (PNode × (PRule × List NKey))) : CandMap :=
  ins.foldl (fun m p => candInsert m p.1 p.2) []

/-- What a key's entry must look like given the base entry and the hits:
the stored node is the base's node if present, else the first hit's node;
the derivations accumulate in order. -/
def lookupSpec (base : Option (PNode × List (PRule × List NKey)))
    (hits : List (PNode × (PRule × List NKey))) :
    Option (PNode × List (PRule × List NKey)) :=
  match base, hits with
  | some (n0, ds), hs => some (n0, ds ++ hs.map (fun p => p.2))
  | none, [] => none
  | none, h :: t => some (h.1, (h :: t).map (fun p => p.2))

theorem candLookup_foldl (ins : List (PNode × (PRule × List NKey)))
    (m : CandMap) (k : NKey) :
    candLookup (ins.foldl (fun m p => candInsert m p.1 p.2) m) k =
      lookupSpec (candLookup m k) (ins.filter (fun p => decide (p.1.key = k))) := by
  induction ins generalizing m with
  | nil =>
    cases hm : candLookup m k with
    | none => simp [lookupSpec, hm]
    | some q => obtain ⟨n0, ds⟩ := q; simp [lookupSpec, hm]
  | cons p ins ih =>
    rw [List.foldl_cons, ih, candLookup_candInsert]
    by_cases hk : p.1.key = k
    · rw [if_pos hk]
      have hfilter : List.filter (fun p => decide (p.1.key = k)) (p :: ins) =
          p :: List.filter (fun p => decide (p.1.key = k)) ins := by
        simp [hk]
      rw [hfilter]
      cases hm : candLookup m k with
      | none => simp [lookupSpec, hm]
      | some q => obtain ⟨n0, ds⟩ := q; simp [lookupSpec, hm]
    · rw [if_neg hk]
      have hfilter : List.filter (fun p => decide (p.1.key = k)) (p :: ins) =
          List.filter (fun p => decide (p.1.key = k)) ins := by
        simp [hk]
      rw [hfilter]

theorem candInsert_keys (m : CandMap) (n : PNode) (d : PRule × List NKey) :
    (candInsert m n d).map (fun p => p.1.key) =
      if n.key ∈ m.map (fun p => p.1.key) then m.map (fun p => p.1.key)
      else m.map (fun p => p.1.key) ++ [n.key] := by
  induction m with
  | nil => simp [candInsert]
  | cons p rest ih =>
    obtain ⟨n0, ds⟩ := p
    simp only [candInsert]
    by_cases h0 : n0.key = n.key
    · rw [if_pos h0]
      simp [h0]
    · rw [if_neg h0]
      simp only [List.map_cons, ih]
      by_cases hmem : n.key ∈ rest.map (fun p => p.1.key)
      · rw [if_pos hmem, if_pos (List.mem_cons_of_mem _ hmem)]
      · rw [if_neg hmem, if_neg ?_]
        · simp
        · intro hc
          rcases List.mem_cons.mp hc with hc1 | hc2
          · exact h0 hc1.symm
          · exact hmem hc2

theorem buildCand_aux_keys_nodup (ins : List (PNode × (PRule × List NKey))) :
    ∀ m : CandMap, (m.map (fun p => p.1.key)).Nodup →
      ((ins.foldl (fun m p => candInsert m p.1 p.2) m).map (fun p => p.1.key)).Nodup := by
  induction ins with
  | nil => intro m hm; exact hm
  | cons p ins ih =>
    intro m hm
    rw [List.foldl_cons]
    refine ih _ ?_
    rw [candInsert_keys]
    by_cases hmem : p.1.key ∈ m.map (fun q => q.1.key)
    · rw [if_pos hmem]; exact hm
    · rw [if_neg hmem]
      refine List.Nodup.append hm (List.nodup_singleton _) ?_
      intro a ha hb
      rw [List.mem_singleton] at hb
      subst hb
      exact hmem ha

/-- C10: the candidate map groups by `(span, label)` only (`Node.__eq__`
ignores the weight), the map never holds two entries for one key, and the
entry for a key stores the *first* node inserted with that key — so its
weight is the first producing rule's weight; later insertions only append
their derivations and never replace the stored node, which is exactly what
`choose_parse_tree`'s `max(..., key=lambda x: x.weight)` over the map keys
reads. -/
theorem candMap_first_insertion_wins (ins : List (PNode × (PRule × List NKey)))
    (k : NKey) :
    ((buildCand ins).map (fun p => p.1.key)).Nodup ∧
    candLookup (buildCand ins) k =
      lookupSpec none (ins.filter (fun p => decide (p.1.key = k))) := by
  constructor
  · exact buildCand_aux_keys_nodup ins [] (by simp)
  · have h := candLookup_foldl ins [] k
    simpa [buildCand, candLookup] using h

/-! ### C6: tree selection -/

theorem addNode_nodes_mono (g : DG) (v x : NKey) (h : x ∈ g.nodes) :
    x ∈ (g.addNode v).nodes := by
  unfold DG.addNode
  split
  · exact h
  · exact List.mem_append_left _ h

theorem addNode_mem_self (g : DG) (v : NKey) : v ∈ (g.addNode v).nodes := by
  unfold DG.addNode
  split
  · assumption
  · simp

theorem addEdge_nodes (g : DG) (a b : NKey) :
    (g.addEdge a b).nodes = ((g.addNode a).addNode b).nodes := by
  unfold DG.addEdge
  by_cases hc : (a, b) ∈ ((g.addNode a).addNode b).edges <;> simp [hc]

theorem addEdge_nodes_mono (g : DG) (a b x : NKey) (h : x ∈ g.nodes) :
    x ∈ (g.addEdge a b).nodes := by
  rw [addEdge_nodes]
  exact addNode_nodes_mono _ _ _ (addNode_nodes_mono _ _ _ h)

theorem addEdges_nodes_mono (es : List (NKey × NKey)) (g : DG) (x : NKey)
    (h : x ∈ g.nodes) : x ∈ (g.addEdges es).nodes := by
  induction es generalizing g with
  | nil => exact h
  | cons e es ih => exact ih _ (addEdge_nodes_mono _ _ _ _ h)

theorem treeLoop_nodes_mono (fuel : Nat) (m : CandMap) :
    ∀ (stack : List NKey) (g : DG) (x : NKey), x ∈ g.nodes →
      x ∈ (treeLoop fuel m stack g).nodes := by
  induction fuel with
  | zero => intro stack g x h; exact h
  | succ f ih =>
    intro stack g x h
    match stack with
    | [] => exact h
    | k :: rest =>
      rw [treeLoop]
      have h1 : x ∈ (g.addNode k).nodes := addNode_nodes_mono _ _ _ h
      cases hc : candLookup m k with
      | none => exact ih _ _ _ h1
      | some q =>
        obtain ⟨n0, ds⟩ := q
        cases ds with
        | nil => exact ih _ _ _ h1
        | cons d ds => exact ih _ _ _ (addEdges_nodes_mono _ _ _ h1)

theorem chooseRoot_fold_name (l : List PNode) (s : String) :
    ∀ (acc : Option PNode), (∀ b, acc = some b → b.name = s) → ∀ (r : PNode),
    (l.foldl (fun acc n =>
      if n.name = s then
        match acc with
        | none => some n
        | some b => if n.weight > b.weight then some n else some b
      else acc) acc = some r) → r.name = s := by
  induction l with
  | nil =>
    intro acc hacc r h
    exact hacc r h
  | cons n t ih =>
    intro acc hacc r h
    rw [List.foldl_cons] at h
    refine ih _ ?_ r h
    intro b hb
    by_cases hn : n.name = s
    · rw [if_pos hn] at hb
      cases acc with
      | none =>
        cases hb
        exact hn
      | some b0 =>
        have hb' : (if n.weight > b0.weight then some n else some b0) = some b := hb
        by_cases hw : n.weight > b0.weight
        · rw [if_pos hw] at hb'
          cases hb'
          exact hn
        · rw [if_neg hw] at hb'
          exact hacc b hb'
    · rw [if_neg hn] at hb
      exact hacc b hb

/-- The chosen root is always labelled with the start symbol. -/
theorem chooseRoot_name (m : CandMap) (s : String) (r : PNode)
    (h : chooseRoot m s = some r) : r.name = s := by
  unfold chooseRoot at h
  exact chooseRoot_fold_name (m.map (fun p => p.1)) s none (fun _ hb => by cases hb) r h

/-- C6 amended: whenever root selection succeeds, `choose_parse_tree`
returns a graph rooted at the selected maximum-weight node labelled with
the grammar's start symbol, and that node is in the output graph; the
output need *not* be a proper tree, since the expansion queue has no
revisit check and a node can gain several parents (see counterexample). -/
theorem chooseParseTree_root (fuel : Nat) (m : CandMap) (s : String) (r : PNode)
    (hf : 1 ≤ fuel) (hr : chooseRoot m s = some r) :
    r.name = s ∧
    chooseParseTree fuel m s = some (treeLoop fuel m [r.key] (DG.mk [] [])) ∧
    r.key ∈ (treeLoop fuel m [r.key] (DG.mk [] [])).nodes := by
  refine ⟨chooseRoot_name m s r hr, ?_, ?_⟩
  · unfold chooseParseTree
    rw [hr]
  · obtain ⟨f, rfl⟩ : ∃ f, fuel = f + 1 := ⟨fuel - 1, by omega⟩
    rw [treeLoop]
    have h1 : r.key ∈ ((DG.mk [] []).addNode r.key).nodes := addNode_mem_self _ _
    cases hc : candLookup m r.key with
    | none => exact treeLoop_nodes_mono _ _ _ _ _ h1
    | some q =>
      obtain ⟨n0, ds⟩ := q
      cases ds with
      | nil => exact treeLoop_nodes_mono _ _ _ _ _ h1
      | cons d ds =>
        exact treeLoop_nodes_mono _ _ _ _ _ (addEdges_nodes_mono _ _ _ h1)

def nS6 : PNode := ⟨(XInt.int 0, XInt.int 4), "S", 5⟩

def nA6 : PNode := ⟨(XInt.int 0, XInt.int 2), "A", 2⟩

def nB6 : PNode := ⟨(XInt.int 2, XInt.int 4), "B", 2⟩

def nC6 : PNode := ⟨(XInt.int 0, XInt.int 1), "C", 1⟩

def rS6 : PRule := ⟨"S", ["A", "B"], 5⟩

def rA6 : PRule := ⟨"A", ["C"], 2⟩

def rB6 : PRule := ⟨"B", ["C"], 2⟩

/-- A candidate map in which two different nonterminal nodes derive the
same child node. -/
def m6 : CandMap :=
  [(nS6, [(rS6, [nA6.key, nB6.key])]),
   (nA6, [(rA6, [nC6.key])]),
   (nB6, [(rB6, [nC6.key])])]

/-- C6 counterexample: selection succeeds (root S), but in the output
graph the node C is a child of both A and B — two distinct parents, so the
output is not a proper rooted tree. -/
theorem parse_tree_shared_child :
    chooseRoot m6 "S" = some nS6 ∧
    ((chooseParseTree 10 m6 "S").getD (DG.mk [] [])).edges =
      [(nS6.key, nA6.key), (nS6.key, nB6.key), (nA6.key, nC6.key), (nB6.key, nC6.key)] ∧
    nA6.key ≠ nB6.key := by decide

/-- Witness for the amended C6 theorem at the concrete candidate map. -/
theorem chooseParseTree_root_witness :
    nS6.name = "S" ∧
    chooseParseTree 10 m6 "S" = some (treeLoop 10 m6 [nS6.key] (DG.mk [] [])) ∧
    nS6.key ∈ (treeLoop 10 m6 [nS6.key] (DG.mk [] [])).nodes :=
  chooseParseTree_root 10 m6 "S" nS6 (by omega) (by decide)

/-! ### C1: the end-to-end example -/

/-- The end-to-end document `{"NOUN": [(0,5), (9,14)], "VERB": [(5,9)]}`. -/
def doc1 : Doc := [("NOUN", [(0, 5), (9, 14)]), ("VERB", [(5, 9)])]

/-- The single rule `S -> NOUN VERB NOUN : 5`. -/
def rule1 : PRule := ⟨"S", ["NOUN", "VERB", "NOUN"], 5⟩

def kN1 : NKey := ((XInt.int 0, XInt.int 5), "NOUN")

def kV1 : NKey := ((XInt.int 5, XInt.int 9), "VERB")

def kN2 : NKey := ((XInt.int 9, XInt.int 14), "NOUN")

def kS1 : NKey := ((XInt.int 0, XInt.int 14), "S")

/-- The base graph of the end-to-end example. -/
def base1 : DG := graphFromDocument doc1

/-- The candidate map produced by chart resolution on the example. -/
def cm1 : CandMap :=
  (getNonterminalNodes 20 base1 ((getRuleApplicationOrder 10 [rule1]).getD [])
    [rule1]).1

/-- The selected parse tree of the example. -/
def tree1 : DG := (chooseParseTree 10 cm1 "S").getD (DG.mk [] [])

/-- C1: on the example document with grammar `S -> NOUN VERB NOUN : 5` the
pipeline behaves end to end as claimed: the base graph holds exactly the
three elementary nodes plus START/END, no blanks, and the direct edges
between elementary nodes are exactly `NOUN@[0,5) → VERB@[5,9)` and
`VERB@[5,9) → NOUN@[9,14)`; resolution yields exactly one `S` node with
span `(0,14)` and weight 5, derived from the path of the three elementary
nodes; the selected tree has that `S` node as root (no predecessors) with
exactly the three elementary nodes as leaf children in ascending start
order. -/
theorem end_to_end_pipeline :
    base1.nodes = [kN1, kN2, kV1, START.key, ENDN.key] ∧
    base1.nodes.filter (fun v => decide (v.2 = "_")) = [] ∧
    base1.edges.filter (fun e =>
        decide (e.1 ≠ START.key ∧ e.1 ≠ ENDN.key ∧ e.2 ≠ START.key ∧ e.2 ≠ ENDN.key)) =
      [(kN1, kV1), (kV1, kN2)] ∧
    getRuleApplicationOrder 10 [rule1] = some ["S"] ∧
    cm1 = [(⟨(XInt.int 0, XInt.int 14), "S", 5⟩, [(rule1, [kN1, kV1, kN2])])] ∧
    chooseParseTree 10 cm1 "S" = some tree1 ∧
    tree1.nodes = [kS1, kN1, kV1, kN2] ∧
    tree1.edges = [(kS1, kN1), (kS1, kV1), (kS1, kN2)] ∧
    tree1.succs kS1 = [kN1, kV1, kN2] ∧
    tree1.preds kS1 = [] ∧
    tree1.succs kN1 = [] ∧ tree1.succs kV1 = [] ∧ tree1.succs kN2 = [] := by
  decide

end Trees

namespace Docapply

/-- `INF = 10`: the finite stand-in for unbounded repetition. -/
def INF : Int := 10

/-- One token of the rule notation.  `typ` is `mo.lastgroup`, the named
alternative that matched; for the `brackets` alternative that is the outer
`brackets` group (its inner `from`/`to` groups close before it), and since
`parse` immediately splits the matched text back into the two numbers, the
embedding stores them directly.  `weight` tokens carry their number. -/
inductive Tok where
  | tokenT (v : String)
  | metaT (c : Char)
  | startbrT
  | endbrT
  | arrowT
  | bracketsT (frm : Nat) (toN : Nat)
  | weightT (w : Nat)
deriving DecidableEq, Repr

/-- `[[:alpha:]_]`. -/
def isIdentStart (c : Char) : Bool := c.isAlpha || c = '_'

/-- `[[:alpha:][:digit:]_]`. -/
def isIdentChar (c : Char) : Bool := c.isAlpha || c.isDigit || c = '_'

/-- `int()` on a scanned digit run. -/
def digitsToNat (ds : List Char) : Nat :=
  ds.foldl (fun n c => 10 * n + (c.toNat - '0'.toNat)) 0

/-- `tokenize(s)`: match one alternative of the token regex at a time,
skipping whitespace; `none` models the `RuntimeError` raised on an
unexpected character.  The alternatives' character sets are disjoint, so
the scanner dispatches on the first character. -/
def tokenizeAux : Nat → List Char → Option (List Tok)
  | 0, _ => none
  | _ + 1, [] => some []
  | fuel + 1, c :: cs =>
    if isIdentStart c then
      let p := cs.span isIdentChar
      (tokenizeAux fuel p.2).map (fun ts => Tok.tokenT (String.mk (c :: p.1)) :: ts)
    else if c = '?' ∨ c = '*' ∨ c = '+' ∨ c = '|' then
      (tokenizeAux fuel cs).map (fun ts => Tok.metaT c :: ts)
    else if c = '(' then
      (tokenizeAux fuel cs).map (fun ts => Tok.startbrT :: ts)
    else if c = ')' then
      (tokenizeAux fuel cs).map (fun ts => Tok.endbrT :: ts)
    else if c = '-' then
      match cs with
      | '>' :: rest => (tokenizeAux fuel rest).map (fun ts => Tok.arrowT :: ts)
      | _ => none
    else if c = '{' then
      let p1 := cs.span Char.isDigit
      match p1.1, p1.2 with
      | [], _ => none
      | _ :: _, ',' :: r2 =>
        let p2 := r2.span (fun ch => ch = ' ')
        let p3 := p2.2.span Char.isDigit
        match p3.1, p3.2 with
        | [], _ => none
        | _ :: _, '}' :: r5 =>
          (tokenizeAux fuel r5).map
            (fun ts => Tok.bracketsT (digitsToNat p1.1) (digitsToNat p3.1) :: ts)
        | _, _ => none
      | _, _ => none
    else if c = ':' then
      let p := cs.span Char.isDigit
      match p.1 with
      | [] => none
      | _ :: _ => (tokenizeAux fuel p.2).map (fun ts => Tok.weightT (digitsToNat p.1) :: ts)
    else if c = ' ' ∨ c = '\n' ∨ c = '\t' then
      tokenizeAux fuel cs
    else none

def tokenize (s : String) : Option (List Tok) := tokenizeAux (s.length + 1) s.data

/-- A parse item: `Expr` nodes (children plus repetition range `[frm, to]`,
default `[1,1]`), bare tokens, the `'|'` tokens kept in node lists, and
the `Or` nodes built by `shunt`. -/
inductive PE where
  | tk (v : String)
  | bar
  | ex (nodes : List PE) (frm : Int) (toN : Int)
  | orE (left : PE) (right : PE)

/-- `res[-1].frm, res[-1].to = f, t`.  When the last element is not an
`Expr` (or `res` is empty) the source raises; such inputs are returned
unchanged here. -/
def updLast (res : List PE) (f tn : Int) : List PE :=
  match res.getLast? with
  | some (PE.ex ns _ _) => res.dropLast ++ [PE.ex ns f tn]
  | _ => res

/-- The loop of `parse(lst, frm, nst)`.  Arguments: fuel, remaining
tokens, `frm`, the enumerate index of the head token, `nst`, the skip
state `to`, and the accumulated `res`.  Returns the final index, the item
list, and whether the return came from a `')'` at positive nesting (the
source returns a bare list there and `Expr(res)` at the loop end; the
caller wraps accordingly). -/
def parseAux : Nat → List Tok → Int → Int → Nat → Option Int → List PE →
    Int × List PE × Bool
  | 0, _, _, i, _, _, res => (i - 1, res, false)
  | _ + 1, [], _, i, _, _, res => (i - 1, res, false)
  | fuel + 1, t :: rest, frm, i, nst, skipQ, res =>
    if (match skipQ with | some tv => decide (tv > i) | none => false) then
      parseAux fuel rest frm (i + 1) nst skipQ res
    else
      match t with
      | Tok.startbrT =>
        let r := parseAux fuel rest (i + frm) 0 (nst + 1) none []
        let wrapped := if r.2.2 then PE.ex r.2.1 1 1 else PE.ex [PE.ex r.2.1 1 1] 1 1
        parseAux fuel rest frm (i + 1) nst (some r.1) (res ++ [wrapped])
      | Tok.endbrT =>
        if nst ≠ 0 then (i + frm + 1, res, true)
        else
          let res2 := match res.getLast? with
            | some lastE => res.dropLast ++ [PE.ex [lastE] 1 1]
            | none => res
          parseAux fuel rest frm (i + 1) nst none res2
      | Tok.tokenT v =>
        parseAux fuel rest frm (i + 1) nst none (res ++ [PE.ex [PE.tk v] 1 1])
      | Tok.metaT c =>
        if c = '|' then parseAux fuel rest frm (i + 1) nst none (res ++ [PE.bar])
        else if c = '+' then parseAux fuel rest frm (i + 1) nst none (updLast res 1 INF)
        else if c = '*' then parseAux fuel rest frm (i + 1) nst none (updLast res 0 INF)
        else if c = '?' then parseAux fuel rest frm (i + 1) nst none (updLast res 0 1)
        else parseAux fuel rest frm (i + 1) nst none res
      | Tok.bracketsT f tn =>
        parseAux fuel rest frm (i + 1) nst none (updLast res ((f : Int)) ((tn : Int)))
      | Tok.weightT _ => parseAux fuel rest frm (i + 1) nst none res
      | Tok.arrowT => parseAux fuel rest frm (i + 1) nst none res

/-- `Expr(parse(lst)[1])` at the top level. -/
def parseTop (lst : List Tok) : PE :=
  PE.ex (parseAux ((lst.length + 1) * (lst.length + 1)) lst 0 0 0 none []).2.1 1 1

/-- `to_tree(statements)`: drop the trailing weight token when present,
assert the `LHS ->` shape, and parse the rest.  (The source's initial
`c = 100` tokenizer loop has no effect on the result and is omitted.) -/
def toTree (line : String) : Option PE :=
  match tokenize line with
  | none => none
  | some toks =>
    match toks with
    | Tok.tokenT _ :: Tok.arrowT :: rest0 =>
      match rest0.getLast? with
      | none => none
      | some (Tok.weightT _) => some (parseTop rest0.dropLast)
      | some _ => some (parseTop rest0)
    | _ => none

mutual

/-- `shunt(tree)`: fold `'|'` tokens into binary `Or` nodes, left to
right; a tree whose first child is a bare token is returned unchanged. -/
def shunt : Nat → PE → PE
  | 0, t => t
  | fuel + 1, PE.ex ns f tn =>
    match ns.head? with
    | some (PE.tk _) => PE.ex ns f tn
    | some PE.bar => PE.ex ns f tn
    | _ => PE.ex (shuntLoop fuel ns []) f tn
  | _ + 1, t => t

/-- The `while stack` loop of `shunt`. -/
def shuntLoop : Nat → List PE → List PE → List PE
  | 0, stack, news => news ++ stack
  | _ + 1, [], news => news
  | fuel + 1, PE.bar :: stack, news =>
    match stack, news.getLast? with
    | nxt :: stack2, some lastE =>
      shuntLoop fuel stack2 (news.dropLast ++ [PE.orE lastE (shunt fuel nxt)])
    | _ :: stack2, none => shuntLoop fuel stack2 news
    | [], _ => news
  | fuel + 1, i :: stack, news => shuntLoop fuel stack (news ++ [shunt fuel i])

end

/-- Sum-of-sequences form: a token name or an n-ary alternation whose
branches are item sequences (the `ORR` of the source). -/
inductive UItem where
  | utok (v : String)
  | uor (branches : List (List UItem))

/-- `range(frm, to + 1)` over Python ints. -/
def intRange (f tn : Int) : List Int :=
  (List.range (tn + 1 - f).toNat).map (fun k => f + Int.ofNat k)

mutual

/-- `unwrap(t)` for an `Expr` input (the only shape the source feeds it). -/
def unwrap : Nat → PE → List UItem
  | 0, _ => []
  | fuel + 1, PE.ex ns _ _ => unwrapItems fuel ns
  | _ + 1, PE.tk v => [UItem.utok v]
  | _ + 1, PE.bar => [UItem.utok "|"]
  | _ + 1, PE.orE _ _ => []

/-- The per-child dispatch of `unwrap`: `Or` → binary `ORR`; repetition
range with `to ≠ 1` → one `ORR` branch per count `j ∈ [frm..to]`, each the
`j`-fold concatenation (`[nodes]*j` chained); `[1,1]` inlined; `[0,1]` →
`ORR([], inner)`; other `[m,1]` ranges are silently dropped (no source
branch matches); tokens stay. -/
def unwrapItems : Nat → List PE → List UItem
  | 0, _ => []
  | _ + 1, [] => []
  | fuel + 1, i :: rest =>
    (match i with
     | PE.orE l r =>
       [UItem.uor [unwrap fuel (PE.ex [l] 1 1), unwrap fuel (PE.ex [r] 1 1)]]
     | PE.ex ns f tn =>
       if tn ≠ 1 then
         [UItem.uor ((intRange f tn).map (fun j =>
            match ns with
            | [PE.tk v] => List.replicate j.toNat (UItem.utok v)
            | [PE.bar] => List.replicate j.toNat (UItem.utok "|")
            | _ => ((List.replicate j.toNat
                     (ns.map (fun k => unwrap fuel (PE.ex [k] f tn)))).flatten).flatten))]
       else if f = 1 then unwrap fuel (PE.ex ns f tn)
       else if f = 0 then [UItem.uor [[], unwrap fuel (PE.ex ns f tn)]]
       else []
     | PE.tk v => [UItem.utok v]
     | PE.bar => [UItem.utok "|"]) ++ unwrapItems fuel rest

end

/-- A node of the branching graph built by `fixup`: a tag plus a unique
id.  The source disambiguates equal tags with `random.random()`; the
embedding uses a deterministic fresh counter. -/
inductive FTag where
  | ftok (v : String)
  | feps
  | fORn
  | fENDORn
  | fSTARTn
  | fENDn
deriving DecidableEq, Repr

abbrev FNode := FTag × Nat

/-- The `nx.DiGraph` holding the branching structure. -/
structure FG where
  nodes : List FNode
  edges : List (FNode × FNode)
deriving DecidableEq, Repr

def FG.addNode (g : FG) (v : FNode) : FG :=
  if v ∈ g.nodes then g else { g with nodes := g.nodes ++ [v] }

def FG.addEdge (g : FG) (a b : FNode) : FG :=
  let g1 := (g.addNode a).addNode b
  if (a, b) ∈ g1.edges then g1 else { g1 with edges := g1.edges ++ [(a, b)] }

def FG.succs (g : FG) (a : FNode) : List FNode :=
  (g.edges.filter (fun e => decide (e.1 = a))).map (fun e => e.2)

mutual

/-- `fixup(g, x, lvl)`: returns the graph, the entry node `fst`, the exit
node `prev` and the next fresh id.  An empty item list produces a single
`epsilon` node standing for both entry and exit (added to the graph by the
caller's edges). -/
def fixup : Nat → FG → List UItem → Nat → FG × Option FNode × Option FNode × Nat
  | 0, g, _, c => (g, none, none, c)
  | _ + 1, g, [], c => (g, some (FTag.feps, c), some (FTag.feps, c), c + 1)
  | fuel + 1, g, x, c => fixupItems fuel g x c none none

/-- The item loop of `fixup`: tokens chain onto `prev`; an `ORR` becomes
an `OR` node fanning out to each branch's entry, every branch exit closing
on a shared `ENDOR` node. -/
def fixupItems : Nat → FG → List UItem → Nat → Option FNode → Option FNode →
    FG × Option FNode × Option FNode × Nat
  | 0, g, _, c, fst, prev => (g, fst, prev, c)
  | _ + 1, g, [], c, fst, prev => (g, fst, prev, c)
  | fuel + 1, g, i :: rest, c, fst, prev =>
    match i with
    | UItem.utok v =>
      let nw : FNode := (FTag.ftok v, c)
      let fst2 := match fst with | none => some nw | some f0 => some f0
      let g1 := g.addNode nw
      let g2 := match prev with | some p => g1.addEdge p nw | none => g1
      fixupItems fuel g2 rest (c + 1) fst2 (some nw)
    | UItem.uor bs =>
      let nw : FNode := (FTag.fORn, c)
      let fst2 := match fst with | none => some nw | some f0 => some f0
      let g1 := match prev with | some p => g.addEdge p nw | none => g
      let g2 := g1.addNode nw
      let pv : FNode := (FTag.fENDORn, c + 1)
      let g3 := g2.addNode pv
      let st := bs.foldl (fun (st : FG × Nat) j =>
        let r := fixup fuel st.1 j st.2
        let g4 := match r.2.2.1 with | some ex0 => r.1.addEdge ex0 pv | none => r.1
        let g5 := match r.2.1 with | some en0 => g4.addEdge nw en0 | none => g4
        (g5, r.2.2.2)) (g3, c + 2)
      fixupItems fuel st.1 rest st.2 fst2 (some pv)

end

/-- `nx.all_simple_paths(g, source, target)` by depth-first search in
adjacency order (the graphs built by `fixup` are acyclic). -/
def allSimplePaths : Nat → FG → FNode → FNode → List FNode → List (List FNode)
  | 0, _, _, _, _ => []
  | fuel + 1, g, cur, target, visited =>
    if cur = target then [visited ++ [cur]]
    else
      ((g.succs cur).filter (fun s => decide (s ∉ visited ++ [cur]))).foldl
        (fun acc s => acc ++ allSimplePaths fuel g s target (visited ++ [cur])) []

/-- `' '.join(j[0].value for j in path if isinstance(j[0], Token))`. -/
def joinNames (p : List FNode) : String :=
  String.intercalate " " (p.filterMap (fun n =>
    match n.1 with | FTag.ftok v => some v | _ => none))

/-- `res.add(...)` on a Python set, modelled in first-discovery order. -/
def setInsert (l : List String) (s : String) : List String :=
  if s ∈ l then l else l ++ [s]

/-- `get_rhs_set(line)`: compile the line, build the branching graph, wire
START/END, enumerate simple paths, and collect each path's joined token
labels. -/
def getRhsSet (line : String) : Option (List String) :=
  (toTree line).map (fun t0 =>
    let t := shunt 1000 t0
    let x := unwrap 1000 t
    let r := fixup 1000 (FG.mk [] []) x 0
    let startN : FNode := (FTag.fSTARTn, 0)
    let endN : FNode := (FTag.fENDn, 0)
    let g1 := match r.2.1 with | some f0 => r.1.addEdge startN f0 | none => r.1.addNode startN
    let g2 := match r.2.2.1 with | some l0 => g1.addEdge l0 endN | none => g1.addNode endN
    (allSimplePaths (g2.nodes.length + 2) g2 startN endN []).foldl
      (fun acc p => setInsert acc (joinNames p)) [])

theorem unwrapItems_nil (fuel : Nat) : unwrapItems fuel [] = [] := by
  cases fuel with
  | zero => rfl
  | succ f => rfl

/-- C9: compiling `X -> a?` via `get_rhs_set` yields exactly the two
concrete right-hand sides `[]` and `[a]`; the optional expands to the
alternation `ORR([], [a])` whose empty branch is realised through the
explicit epsilon node. -/
theorem optional_compiles_to_two :
    getRhsSet "X -> a?" = some ["", "a"] ∧
    unwrap 1000 (shunt 1000 (parseTop [Tok.tokenT "a", Tok.metaT '?'])) =
      [UItem.uor [[], [UItem.utok "a"]]] :=
  ⟨rfl, rfl⟩

set_option maxRecDepth 40000 in
theorem brackets_example_concrete :
    getRhsSet "X -> a{2,3}" = some ["a a", "a a a"] := rfl

/-- C7: a bounded repetition `{m,n}` is attached by `parse` to the
preceding unit, and for every `m ≤ n` the expansion materialises, for each
count `j` in `m..n`, the sequence of `j` copies of the unit (with the unit
inlined when `m = n = 1`); end to end, `X -> a{2,3}` compiles to exactly
`{"a a", "a a a"}`. -/
theorem brackets_apply_range (fuel m n : Nat) (h : m ≤ n) :
    parseTop [Tok.tokenT "a", Tok.bracketsT m n] =
      PE.ex [PE.ex [PE.tk "a"] ((m : Int)) ((n : Int))] 1 1 ∧
    unwrap (fuel + 4) (shunt (fuel + 4)
        (PE.ex [PE.ex [PE.tk "a"] ((m : Int)) ((n : Int))] 1 1)) =
      (if m = 1 ∧ n = 1 then [UItem.utok "a"]
       else [UItem.uor ((List.range (n + 1 - m)).map
              (fun k => List.replicate (m + k) (UItem.utok "a")))]) ∧
    getRhsSet "X -> a{2,3}" = some ["a a", "a a a"] := by
  refine ⟨?_, ?_, brackets_example_concrete⟩
  · have h2 : (parseAux 9 [Tok.tokenT "a", Tok.bracketsT m n] 0 0 0 none []).2.1 =
        [PE.ex [PE.tk "a"] ((m : Int)) ((n : Int))] := rfl
    show PE.ex (parseAux 9 [Tok.tokenT "a", Tok.bracketsT m n] 0 0 0 none []).2.1 1 1 = _
    rw [h2]
  have hsh : shunt (fuel + 4) (PE.ex [PE.ex [PE.tk "a"] ((m : Int)) ((n : Int))] 1 1) =
      PE.ex [PE.ex [PE.tk "a"] ((m : Int)) ((n : Int))] 1 1 := by
    simp [shunt, shuntLoop]
  rw [hsh]
  by_cases hn1 : n = 1
  · subst hn1
    interval_cases m
    · have hr : List.range (1 + 1 - 0) = [0, 1] := rfl
      simp [unwrap, unwrapItems, unwrapItems_nil, hr]
    · simp [unwrap, unwrapItems, unwrapItems_nil]
  · have hn' : ((n : Int)) ≠ 1 := by omega
    have hite : ¬(m = 1 ∧ n = 1) := fun hc => hn1 hc.2
    rw [if_neg hite]
    simp only [unwrap, unwrapItems, unwrapItems_nil, List.append_nil]
    rw [if_pos hn']
    have h1 : (((n : Int)) + 1 - ((m : Int))).toNat = n + 1 - m := by omega
    simp [intRange, List.map_map, h1, Function.comp]
    intro a ha
    omega

/-- Witness for C7 at `m = 2`, `n = 3`. -/
theorem brackets_apply_range_witness :
    unwrap 4 (shunt 4 (PE.ex [PE.ex [PE.tk "a"] (((2 : Nat) : Int)) (((3 : Nat) : Int))] 1 1)) =
      (if 2 = 1 ∧ 3 = 1 then [UItem.utok "a"]
       else [UItem.uor ((List.range (3 + 1 - 2)).map
              (fun k => List.replicate (2 + k) (UItem.utok "a")))]) :=
  (brackets_apply_range 0 2 3 (by decide)).2.1

end Docapply
